import Mathlib

/-!
Verification of the shanten engine (table-driven distance-to-completion
calculator for a 34-kind tile game) against its specification.

The two lookup tables are build-time binary assets; the engine only ever
reads them through bounds-checked lookups that default to an all-zero
entry.  We therefore embed the engine parametrically in the two tables,
each a list of 10-slot entries.  Machine `u8` addition is modelled as
addition modulo 256 and the final `as i8` cast is modelled explicitly.
-/

namespace Shanten

/-- A 10-slot lookup-table or accumulator entry.  Slots 0-4 are the
non-pair slots, slots 5-9 the pair-bearing slots; indices 10 and above
are never used by the engine. -/
abbrev Entry := Nat → Nat

/-- The all-zero entry produced by `unwrap_or_default` on `[u8; 10]`. -/
def zeroEntry : Entry := fun _ => 0

/-- Bounds-checked table lookup: `table.get(index).copied().unwrap_or_default()`. -/
def lookupEntry (table : List Entry) (index : Nat) : Entry :=
  List.getD table index zeroEntry

/-- Wrapping 8-bit addition, `a + b` on `u8`. -/
def u8add (a b : Nat) : Nat := (a + b) % 256

/-- Reinterpretation of a `u8` value as an `i8` (the `as i8` cast). -/
def toI8 (n : Nat) : Int :=
  if n % 256 < 128 then (n % 256 : Int) else (n % 256 : Int) - 256

/-- Write value `v` into slot `j` of an accumulator. -/
def updSlot (lhs : Entry) (j v : Nat) : Entry :=
  fun i => if i = j then v else lhs i

/-- Body of one pair-slot update: starting from
`min (lhs[j] + tab[0]) (lhs[0] + tab[j])`, fold over `k in 5..j` taking
the minimum with `lhs[k] + tab[j-k]` and `lhs[j-k] + tab[k]`. -/
def pairSht (lhs tab : Entry) (j : Nat) : Nat :=
  (List.range' 5 (j - 5)).foldl
    (fun s k => min (min s (u8add (lhs k) (tab (j - k)))) (u8add (lhs (j - k)) (tab k)))
    (min (u8add (lhs j) (tab 0)) (u8add (lhs 0) (tab j)))

/-- Body of one non-pair-slot update: starting from `lhs[j] + tab[0]`,
fold over `k in 0..j` taking the minimum with `lhs[k] + tab[j-k]`. -/
def nonSht (lhs tab : Entry) (j : Nat) : Nat :=
  (List.range j).foldl
    (fun s k => min s (u8add (lhs k) (tab (j - k))))
    (u8add (lhs j) (tab 0))

/-- The pair-slot loop `for j in (5..=(5+m)).rev()` of `add_suhai`:
slot `5+m` is updated first, then the budget shrinks. -/
def pairLoopAux (tab : Entry) (lhs : Entry) : Nat → Entry
  | 0 => updSlot lhs 5 (pairSht lhs tab 5)
  | m + 1 => pairLoopAux tab (updSlot lhs (5 + (m + 1)) (pairSht lhs tab (5 + (m + 1)))) m

/-- The non-pair-slot loop `for j in (0..=m).rev()` of `add_suhai`. -/
def nonLoopAux (tab : Entry) (lhs : Entry) : Nat → Entry
  | 0 => updSlot lhs 0 (nonSht lhs tab 0)
  | m + 1 => nonLoopAux tab (updSlot lhs (m + 1) (nonSht lhs tab (m + 1))) m

/-- Merge one suit group's table entry into the accumulator (`add_suhai`). -/
def add_suhai (table : List Entry) (lhs : Entry) (index m : Nat) : Entry :=
  let tab := lookupEntry table index
  nonLoopAux tab (pairLoopAux tab lhs m) m

/-- Merge the honor group's table entry into the accumulator (`add_jihai`):
only the single slot `m + 5` is recomputed, with the same candidate set
as a pair-slot update. -/
def add_jihai (table : List Entry) (lhs : Entry) (index m : Nat) : Entry :=
  let tab := lookupEntry table index
  updSlot lhs (m + 5) (pairSht lhs tab (m + 5))

/-- Base-5 encoding of a group of tile counts (`sum_tiles`). -/
def sum_tiles (tiles : List Nat) : Nat :=
  tiles.foldl (fun acc x => acc * 5 + x) 0

/-- Standard shanten (`calc_normal`): seed from the first suit's entry,
merge the second and third suit and the honor group, read slot
`5 + len_div3` and subtract one. -/
def calc_normal (suhai jihai : List Entry) (tiles : List Nat) (len_div3 : Nat) : Int :=
  let ret0 := lookupEntry suhai (sum_tiles (tiles.take 9))
  let ret1 := add_suhai suhai ret0 (sum_tiles ((tiles.drop 9).take 9)) len_div3
  let ret2 := add_suhai suhai ret1 (sum_tiles ((tiles.drop 18).take 9)) len_div3
  let ret3 := add_jihai jihai ret2 (sum_tiles (tiles.drop 27)) len_div3
  toI8 (ret3 (5 + len_div3)) - 1

/-- Seven-pairs shanten (`calc_chitoi`). -/
def calc_chitoi (tiles : List Nat) : Int :=
  let kinds := (tiles.filter (fun c => 0 < c)).length
  let pairs := (tiles.filter (fun c => 2 ≤ c)).length
  let redunct : Int := ((7 - kinds : Nat) : Int)
  7 - pairs + redunct - 1

/-- The 13 terminal/honor kinds used by `calc_kokushi`. -/
def TERMINAL_INDICES : List Nat := [0, 8, 9, 17, 18, 26, 27, 28, 29, 30, 31, 32, 33]

/-- Thirteen-orphans shanten (`calc_kokushi`). -/
def calc_kokushi (tiles : List Nat) : Int :=
  let kinds := (TERMINAL_INDICES.filter (fun i => 0 < tiles.getD i 0)).length
  let pairs := (TERMINAL_INDICES.filter (fun i => 2 ≤ tiles.getD i 0)).length
  let redunct : Int := if 0 < pairs then 1 else 0
  14 - kinds - redunct - 1

/-- Combined shanten (`calc_all`). -/
def calc_all (suhai jihai : List Entry) (tiles : List Nat) (len_div3 : Nat) : Int :=
  let shanten := calc_normal suhai jihai tiles len_div3
  if shanten ≤ 0 ∨ len_div3 < 4 then shanten
  else
    let shanten2 := min shanten (calc_chitoi tiles)
    if 0 < shanten2 then min shanten2 (calc_kokushi tiles) else shanten2

/-! ### Generic lemmas about the two fold shapes used by the merge loops -/

/-- The fold of a two-candidate min step is at most its initial value. -/
theorem foldl2_le_init (f g : Nat → Nat) :
    ∀ (l : List Nat) (a : Nat),
      l.foldl (fun s k => min (min s (f k)) (g k)) a ≤ a := by
  intro l
  induction l with
  | nil => intro a; exact le_refl a
  | cons k t ih =>
    intro a
    simp only [List.foldl_cons]
    exact le_trans (ih _) (le_trans (min_le_left _ _) (min_le_left _ _))

/-- The fold of a two-candidate min step is at most each `f` candidate. -/
theorem foldl2_le_f (f g : Nat → Nat) :
    ∀ (l : List Nat) (a k : Nat), k ∈ l →
      l.foldl (fun s k => min (min s (f k)) (g k)) a ≤ f k := by
  intro l
  induction l with
  | nil => intro a k hk; cases hk
  | cons k' t ih =>
    intro a k hk
    simp only [List.foldl_cons]
    rcases List.mem_cons.mp hk with h | h
    · subst h
      exact le_trans (foldl2_le_init f g t _)
        (le_trans (min_le_left _ _) (min_le_right _ _))
    · exact ih _ k h

/-- The fold of a two-candidate min step is at most each `g` candidate. -/
theorem foldl2_le_g (f g : Nat → Nat) :
    ∀ (l : List Nat) (a k : Nat), k ∈ l →
      l.foldl (fun s k => min (min s (f k)) (g k)) a ≤ g k := by
  intro l
  induction l with
  | nil => intro a k hk; cases hk
  | cons k' t ih =>
    intro a k hk
    simp only [List.foldl_cons]
    rcases List.mem_cons.mp hk with h | h
    · subst h
      exact le_trans (foldl2_le_init f g t _) (min_le_right _ _)
    · exact ih _ k h

/-- The fold of a two-candidate min step is attained: it equals the
initial value or one of the candidates. -/
theorem foldl2_cases (f g : Nat → Nat) :
    ∀ (l : List Nat) (a : Nat),
      l.foldl (fun s k => min (min s (f k)) (g k)) a = a
      ∨ ∃ k ∈ l, l.foldl (fun s k => min (min s (f k)) (g k)) a = f k
                 ∨ l.foldl (fun s k => min (min s (f k)) (g k)) a = g k := by
  intro l
  induction l with
  | nil => intro a; exact Or.inl rfl
  | cons k t ih =>
    intro a
    simp only [List.foldl_cons]
    rcases ih (min (min a (f k)) (g k)) with h | ⟨k', hk', h⟩
    · rcases min_cases (min a (f k)) (g k) with ⟨h2, _⟩ | ⟨h2, _⟩
      · rcases min_cases a (f k) with ⟨h3, _⟩ | ⟨h3, _⟩
        · exact Or.inl (by rw [h, h2, h3])
        · exact Or.inr ⟨k, List.mem_cons_self _ _, Or.inl (by rw [h, h2, h3])⟩
      · exact Or.inr ⟨k, List.mem_cons_self _ _, Or.inr (by rw [h, h2])⟩
    · exact Or.inr ⟨k', List.mem_cons_of_mem _ hk', h⟩

/-- Congruence for the two-candidate min fold. -/
theorem foldl2_congr (f g f' g' : Nat → Nat) :
    ∀ (l : List Nat) (a : Nat), (∀ k ∈ l, f k = f' k ∧ g k = g' k) →
      l.foldl (fun s k => min (min s (f k)) (g k)) a
        = l.foldl (fun s k => min (min s (f' k)) (g' k)) a := by
  intro l
  induction l with
  | nil => intro a _; rfl
  | cons k t ih =>
    intro a h
    simp only [List.foldl_cons]
    rw [(h k (List.mem_cons_self _ _)).1, (h k (List.mem_cons_self _ _)).2]
    exact ih _ (fun k' hk' => h k' (List.mem_cons_of_mem _ hk'))

/-- The fold of a one-candidate min step is at most its initial value. -/
theorem foldl1_le_init (f : Nat → Nat) :
    ∀ (l : List Nat) (a : Nat),
      l.foldl (fun s k => min s (f k)) a ≤ a := by
  intro l
  induction l with
  | nil => intro a; exact le_refl a
  | cons k t ih =>
    intro a
    simp only [List.foldl_cons]
    exact le_trans (ih _) (min_le_left _ _)

/-- The fold of a one-candidate min step is at most each candidate. -/
theorem foldl1_le_f (f : Nat → Nat) :
    ∀ (l : List Nat) (a k : Nat), k ∈ l →
      l.foldl (fun s k => min s (f k)) a ≤ f k := by
  intro l
  induction l with
  | nil => intro a k hk; cases hk
  | cons k' t ih =>
    intro a k hk
    simp only [List.foldl_cons]
    rcases List.mem_cons.mp hk with h | h
    · subst h
      exact le_trans (foldl1_le_init f t _) (min_le_right _ _)
    · exact ih _ k h

/-- The fold of a one-candidate min step is attained. -/
theorem foldl1_cases (f : Nat → Nat) :
    ∀ (l : List Nat) (a : Nat),
      l.foldl (fun s k => min s (f k)) a = a
      ∨ ∃ k ∈ l, l.foldl (fun s k => min s (f k)) a = f k := by
  intro l
  induction l with
  | nil => intro a; exact Or.inl rfl
  | cons k t ih =>
    intro a
    simp only [List.foldl_cons]
    rcases ih (min a (f k)) with h | ⟨k', hk', h⟩
    · rcases min_cases a (f k) with ⟨h2, _⟩ | ⟨h2, _⟩
      · exact Or.inl (by rw [h, h2])
      · exact Or.inr ⟨k, List.mem_cons_self _ _, by rw [h, h2]⟩
    · exact Or.inr ⟨k', List.mem_cons_of_mem _ hk', h⟩

/-- Congruence for the one-candidate min fold. -/
theorem foldl1_congr (f f' : Nat → Nat) :
    ∀ (l : List Nat) (a : Nat), (∀ k ∈ l, f k = f' k) →
      l.foldl (fun s k => min s (f k)) a
        = l.foldl (fun s k => min s (f' k)) a := by
  intro l
  induction l with
  | nil => intro a _; rfl
  | cons k t ih =>
    intro a h
    simp only [List.foldl_cons]
    rw [h k (List.mem_cons_self _ _)]
    exact ih _ (fun k' hk' => h k' (List.mem_cons_of_mem _ hk'))

/-! ### Characterizing the in-place merge loops by the pre-merge values -/

/-- A pair-slot update only reads accumulator slots at indices at most `j`. -/
theorem pairSht_congr (L L' T : Entry) (j : Nat) (h : ∀ i, i ≤ j → L i = L' i) :
    pairSht L T j = pairSht L' T j := by
  unfold pairSht
  rw [h j le_rfl, h 0 (Nat.zero_le j)]
  exact foldl2_congr _ _ _ _ _ _ (fun k hk => by
    have hk5 := List.mem_range'_1.mp hk
    exact ⟨by rw [h k (by omega)], by rw [h (j - k) (by omega)]⟩)

/-- A non-pair-slot update only reads accumulator slots at indices at most `j`. -/
theorem nonSht_congr (L L' T : Entry) (j : Nat) (h : ∀ i, i ≤ j → L i = L' i) :
    nonSht L T j = nonSht L' T j := by
  unfold nonSht
  rw [h j le_rfl]
  exact foldl1_congr _ _ _ _ (fun k hk => by
    have hk' := List.mem_range.mp hk
    rw [h k (by omega)])

/-- The descending pair-slot loop computes, in every slot `5..=5+m`, the
pair-slot formula over the accumulator values from before the loop, and
leaves every other slot unchanged. -/
theorem pairLoopAux_spec (tab : Entry) :
    ∀ (m : Nat) (lhs : Entry) (i : Nat),
      pairLoopAux tab lhs m i
        = if 5 ≤ i ∧ i ≤ 5 + m then pairSht lhs tab i else lhs i := by
  intro m
  induction m with
  | zero =>
    intro lhs i
    show updSlot lhs 5 (pairSht lhs tab 5) i = _
    unfold updSlot
    by_cases hi : i = 5
    · subst hi; rw [if_pos rfl, if_pos (by omega)]
    · rw [if_neg hi, if_neg (by omega)]
  | succ m ih =>
    intro lhs i
    show pairLoopAux tab (updSlot lhs (5 + (m + 1)) (pairSht lhs tab (5 + (m + 1)))) m i = _
    rw [ih]
    by_cases hA : 5 ≤ i ∧ i ≤ 5 + m
    · rw [if_pos hA, if_pos (show 5 ≤ i ∧ i ≤ 5 + (m + 1) by omega)]
      exact pairSht_congr _ _ _ _ (fun t ht => by
        unfold updSlot
        rw [if_neg (by omega)])
    · rw [if_neg hA]
      unfold updSlot
      by_cases hB : i = 5 + (m + 1)
      · rw [if_pos hB, if_pos (by omega), hB]
      · rw [if_neg hB, if_neg (by omega)]

/-- The descending non-pair-slot loop computes, in every slot `0..=m`, the
non-pair-slot formula over the accumulator values from before the loop,
and leaves every other slot unchanged. -/
theorem nonLoopAux_spec (tab : Entry) :
    ∀ (m : Nat) (lhs : Entry) (i : Nat),
      nonLoopAux tab lhs m i
        = if i ≤ m then nonSht lhs tab i else lhs i := by
  intro m
  induction m with
  | zero =>
    intro lhs i
    show updSlot lhs 0 (nonSht lhs tab 0) i = _
    unfold updSlot
    by_cases hi : i = 0
    · subst hi; rw [if_pos rfl, if_pos (by omega)]
    · rw [if_neg hi, if_neg (by omega)]
  | succ m ih =>
    intro lhs i
    show nonLoopAux tab (updSlot lhs (m + 1) (nonSht lhs tab (m + 1))) m i = _
    rw [ih]
    by_cases hA : i ≤ m
    · rw [if_pos hA, if_pos (by omega)]
      exact nonSht_congr _ _ _ _ (fun t ht => by
        unfold updSlot
        rw [if_neg (by omega)])
    · rw [if_neg hA]
      unfold updSlot
      by_cases hB : i = m + 1
      · rw [if_pos hB, if_pos (by omega), hB]
      · rw [if_neg hB, if_neg (by omega)]

/-- Full characterization of `add_suhai` by the pre-merge accumulator:
slots `0..=m` get the non-pair formula, slots `5..=5+m` the pair formula,
and every other slot is unchanged. -/
theorem add_suhai_spec (table : List Entry) (lhs : Entry) (index m : Nat)
    (hm : m ≤ 4) (i : Nat) :
    add_suhai table lhs index m i
      = if i ≤ m then nonSht lhs (lookupEntry table index) i
        else if 5 ≤ i ∧ i ≤ 5 + m then pairSht lhs (lookupEntry table index) i
        else lhs i := by
  show nonLoopAux (lookupEntry table index)
    (pairLoopAux (lookupEntry table index) lhs m) m i = _
  rw [nonLoopAux_spec]
  by_cases h1 : i ≤ m
  · rw [if_pos h1, if_pos h1]
    exact nonSht_congr _ _ _ _ (fun t ht => by
      rw [pairLoopAux_spec]
      rw [if_neg (by omega)])
  · rw [if_neg h1, if_neg h1, pairLoopAux_spec]

/-! ### Claim C2: the merge formulas of `add_suhai` -/

/-- C2 (amended): for every accumulator entry, table index and budget
`m` in `0..=4`, `add_suhai` sets each non-pair slot `j` (`j` in `0..=m`)
to the minimum over all splits `k` in `0..=j` of `old_acc[k] + group[j-k]`,
and sets each pair-bearing slot `5+j` to the minimum over all splits `k`
in `0..=j` of both `old_acc[5+k] + group[j-k]` and
`old_acc[j-k] + group[5+k]` — all minima taken over the accumulator's
values before this merge (the reverse in-place update never reads an
already-updated slot).  Each slot value is stated as a lower bound on
every candidate together with attainment by some candidate. -/
theorem add_suhai_merge (table : List Entry) (lhs : Entry) (index m : Nat)
    (hm : m ≤ 4) (j : Nat) (hj : j ≤ m) :
    ((∀ k, k ≤ j →
        add_suhai table lhs index m j
          ≤ u8add (lhs k) (lookupEntry table index (j - k)))
      ∧ (∃ k, k ≤ j ∧
          add_suhai table lhs index m j
            = u8add (lhs k) (lookupEntry table index (j - k))))
    ∧ ((∀ k, k ≤ j →
          add_suhai table lhs index m (5 + j)
            ≤ u8add (lhs (5 + k)) (lookupEntry table index (j - k))
          ∧ add_suhai table lhs index m (5 + j)
            ≤ u8add (lhs (j - k)) (lookupEntry table index (5 + k)))
      ∧ (∃ k, k ≤ j ∧
          (add_suhai table lhs index m (5 + j)
              = u8add (lhs (5 + k)) (lookupEntry table index (j - k))
           ∨ add_suhai table lhs index m (5 + j)
              = u8add (lhs (j - k)) (lookupEntry table index (5 + k))))) := by
  have hRn : add_suhai table lhs index m j = nonSht lhs (lookupEntry table index) j := by
    rw [add_suhai_spec table lhs index m hm, if_pos hj]
  have hRp : add_suhai table lhs index m (5 + j)
      = pairSht lhs (lookupEntry table index) (5 + j) := by
    rw [add_suhai_spec table lhs index m hm, if_neg (by omega),
      if_pos (show 5 ≤ 5 + j ∧ 5 + j ≤ 5 + m by omega)]
  have hrange : 5 + j - 5 = j := by omega
  constructor
  · constructor
    · intro k hk
      rw [hRn]
      rcases Nat.lt_or_ge k j with h | h
      · exact foldl1_le_f _ _ _ k (List.mem_range.mpr h)
      · have hkj : k = j := le_antisymm hk h
        subst hkj
        rw [Nat.sub_self]
        exact foldl1_le_init _ _ _
    · rw [hRn]
      rcases foldl1_cases (fun k => u8add (lhs k) (lookupEntry table index (j - k)))
          (List.range j) (u8add (lhs j) (lookupEntry table index 0)) with h | ⟨k, hk, h⟩
      · exact ⟨j, le_rfl, by rw [Nat.sub_self]; exact h⟩
      · exact ⟨k, Nat.le_of_lt (List.mem_range.mp hk), h⟩
  · constructor
    · intro k hk
      rw [hRp]
      unfold pairSht
      rw [hrange]
      rcases Nat.lt_or_ge k j with h | h
      · have hmem : 5 + k ∈ List.range' 5 j := List.mem_range'_1.mpr ⟨by omega, by omega⟩
        constructor
        · have hb := foldl2_le_f
            (fun k => u8add (lhs k) (lookupEntry table index (5 + j - k)))
            (fun k => u8add (lhs (5 + j - k)) (lookupEntry table index k))
            (List.range' 5 j)
            (min (u8add (lhs (5 + j)) (lookupEntry table index 0))
              (u8add (lhs 0) (lookupEntry table index (5 + j)))) (5 + k) hmem
          simp only [] at hb
          have e2 : 5 + j - (5 + k) = j - k := by omega
          rw [e2] at hb
          exact hb
        · have hb := foldl2_le_g
            (fun k => u8add (lhs k) (lookupEntry table index (5 + j - k)))
            (fun k => u8add (lhs (5 + j - k)) (lookupEntry table index k))
            (List.range' 5 j)
            (min (u8add (lhs (5 + j)) (lookupEntry table index 0))
              (u8add (lhs 0) (lookupEntry table index (5 + j)))) (5 + k) hmem
          simp only [] at hb
          have e2 : 5 + j - (5 + k) = j - k := by omega
          rw [e2] at hb
          exact hb
      · have hkj : k = j := le_antisymm hk h
        subst hkj
        rw [Nat.sub_self]
        constructor
        · exact le_trans (foldl2_le_init _ _ _ _) (min_le_left _ _)
        · exact le_trans (foldl2_le_init _ _ _ _) (min_le_right _ _)
    · rw [hRp]
      unfold pairSht
      rw [hrange]
      rcases foldl2_cases
          (fun k => u8add (lhs k) (lookupEntry table index (5 + j - k)))
          (fun k => u8add (lhs (5 + j - k)) (lookupEntry table index k))
          (List.range' 5 j)
          (min (u8add (lhs (5 + j)) (lookupEntry table index 0))
            (u8add (lhs 0) (lookupEntry table index (5 + j))))
          with h | ⟨k', hk', h⟩
      · rcases min_cases (u8add (lhs (5 + j)) (lookupEntry table index 0))
            (u8add (lhs 0) (lookupEntry table index (5 + j))) with ⟨h2, _⟩ | ⟨h2, _⟩
        · exact ⟨j, le_rfl, Or.inl (by rw [Nat.sub_self]; rw [h, h2])⟩
        · exact ⟨j, le_rfl, Or.inr (by rw [Nat.sub_self]; rw [h, h2])⟩
      · have hk5 := List.mem_range'_1.mp hk'
        rcases h with h | h
        · refine ⟨k' - 5, by omega, Or.inl (h.trans ?_)⟩
          have e1 : 5 + (k' - 5) = k' := by omega
          have e2 : 5 + j - k' = j - (k' - 5) := by omega
          rw [e1, e2]
        · refine ⟨k' - 5, by omega, Or.inr (h.trans ?_)⟩
          have e1 : 5 + (k' - 5) = k' := by omega
          have e2 : 5 + j - k' = j - (k' - 5) := by omega
          rw [e1, e2]

/-- Witness for C2's theorem at a concrete input. -/
theorem add_suhai_merge_witness :
    add_suhai [] zeroEntry 0 0 0 ≤ u8add (zeroEntry 0) (lookupEntry [] 0 0) :=
  (add_suhai_merge [] zeroEntry 0 0 (by decide) 0 (by decide)).1.1 0 (Nat.le_refl 0)

/-- Pair-slot formula exactly as claim C2 states it: the minimum of
`old_acc[5+j] + group[0]`, `old_acc[0] + group[5+j]` and, for every
intermediate split `k` in `1..j` only, `old_acc[5+k] + group[j-k]` and
`old_acc[j-k] + group[5+k]`.  This omits the split `k = 0` (candidates
`old_acc[5] + group[j]` and `old_acc[j] + group[5]`) that the code's
inner loop does consider. -/
def claimedPairMin (L T : Entry) (j : Nat) : Nat :=
  (List.range' 1 (j - 1)).foldl
    (fun s k => min (min s (u8add (L (5 + k)) (T (j - k)))) (u8add (L (j - k)) (T (5 + k))))
    (min (u8add (L (5 + j)) (T 0)) (u8add (L 0) (T (5 + j))))

/-- Accumulator entry for the C2 counterexample. -/
def c2Lhs : Entry := fun i =>
  if i = 0 then 9 else if i = 1 then 9 else if i = 5 then 0 else if i = 6 then 9 else 0

/-- Table entry for the C2 counterexample (all values are valid nibbles). -/
def c2Tab : Entry := fun i =>
  if i = 0 then 9 else if i = 1 then 0 else if i = 5 then 9 else if i = 6 then 9 else 0

/-- C2 counterexample: with budget `m = 1`, pair slot `6` (`j = 1`), the
code sets the slot to `0` via the split `k = 0`
(`old_acc[5] + group[1] = 0`), while the minimum of the candidate set
spelled out by the claim is `18`; so the claim's pair-slot formula is
wrong as stated. -/
theorem add_suhai_pair_claim_false :
    add_suhai [c2Tab] c2Lhs 0 1 6 = 0
    ∧ claimedPairMin c2Lhs c2Tab 1 = 18
    ∧ add_suhai [c2Tab] c2Lhs 0 1 6 ≠ claimedPairMin c2Lhs c2Tab 1 := by
  refine ⟨by decide, by decide, by decide⟩

/-! ### Claim C8: the honor-group merge only writes slot `m + 5` -/

/-- C8: for every accumulator entry, table index and budget `m` in
`0..=4`, `add_jihai` modifies only slot `m + 5`; every other slot is
unchanged. -/
theorem add_jihai_frame (table : List Entry) (lhs : Entry) (index m : Nat)
    (hm : m ≤ 4) (i : Nat) (hi : i ≠ m + 5) :
    add_jihai table lhs index m i = lhs i := by
  show updSlot lhs (m + 5) (pairSht lhs (lookupEntry table index) (m + 5)) i = lhs i
  unfold updSlot
  rw [if_neg hi]

/-- Witness for C8's theorem at a concrete input. -/
theorem add_jihai_frame_witness : add_jihai [] zeroEntry 0 0 3 = zeroEntry 3 :=
  add_jihai_frame [] zeroEntry 0 0 (by decide) 3 (by decide)

/-! ### Claim C7: out-of-range table lookups degrade to the zero entry -/

/-- Out-of-range `getD` on the table returns the default all-zero entry. -/
theorem lookupEntry_oob :
    ∀ (table : List Entry) (index : Nat), table.length ≤ index →
      lookupEntry table index = zeroEntry := by
  intro table
  induction table with
  | nil => intro idx _; cases idx <;> rfl
  | cons e t ih =>
    intro idx h
    cases idx with
    | zero => simp at h
    | succ n =>
      show List.getD (e :: t) (n + 1) zeroEntry = zeroEntry
      rw [List.getD_cons_succ]
      exact ih n (by simpa using h)

/-- C7: every lookup with an index outside the table's bounds yields the
all-zero 10-slot entry instead of failing; consequently the group merges
of `add_suhai` and `add_jihai` behave as a merge with the zero entry, and
an out-of-range seed lookup in `calc_normal` seeds the accumulator with
the zero entry while the evaluation still returns a result. -/
theorem oob_lookup_degrades (table : List Entry) (index : Nat)
    (h : table.length ≤ index) :
    (∀ i, lookupEntry table index i = 0)
    ∧ (∀ (lhs : Entry) (m : Nat),
        add_suhai table lhs index m
          = nonLoopAux zeroEntry (pairLoopAux zeroEntry lhs m) m
        ∧ add_jihai table lhs index m
          = updSlot lhs (m + 5) (pairSht lhs zeroEntry (m + 5)))
    ∧ (∀ (jihai : List Entry) (tiles : List Nat) (len : Nat),
        sum_tiles (tiles.take 9) = index →
        calc_normal table jihai tiles len
          = toI8 (add_jihai jihai (add_suhai table (add_suhai table zeroEntry
              (sum_tiles ((tiles.drop 9).take 9)) len)
              (sum_tiles ((tiles.drop 18).take 9)) len)
              (sum_tiles (tiles.drop 27)) len (5 + len)) - 1) := by
  have hz := lookupEntry_oob table index h
  refine ⟨fun i => by rw [hz]; rfl, fun lhs m => ⟨?_, ?_⟩, ?_⟩
  · show nonLoopAux (lookupEntry table index)
      (pairLoopAux (lookupEntry table index) lhs m) m = _
    rw [hz]
  · show updSlot lhs (m + 5) (pairSht lhs (lookupEntry table index) (m + 5)) = _
    rw [hz]
  · intro jihai tiles len heq
    simp only [calc_normal]
    rw [heq, hz]

/-- Witness for C7's theorem at a concrete input. -/
theorem oob_lookup_degrades_witness : lookupEntry [] 5 0 = 0 :=
  (oob_lookup_degrades [] 5 (by decide)).1 0

/-! ### Value bounds through the merge pipeline -/

/-- A non-pair-slot update is bounded by its first candidate. -/
theorem nonSht_le (L T : Entry) (j : Nat) : nonSht L T j ≤ u8add (L j) (T 0) :=
  foldl1_le_init _ _ _

/-- A pair-slot update is bounded by its first candidate. -/
theorem pairSht_le (L T : Entry) (j : Nat) : pairSht L T j ≤ u8add (L j) (T 0) :=
  le_trans (foldl2_le_init _ _ _ _) (min_le_left _ _)

/-- Any lookup into a table of nibble-valued entries is nibble-valued. -/
theorem lookupEntry_le :
    ∀ (table : List Entry), (∀ e ∈ table, ∀ i, e i ≤ 15) →
      ∀ (index i : Nat), lookupEntry table index i ≤ 15 := by
  intro table
  induction table with
  | nil =>
    intro _ index i
    show List.getD [] index zeroEntry i ≤ 15
    rw [List.getD_nil]
    exact Nat.zero_le 15
  | cons e t ih =>
    intro h index i
    cases index with
    | zero =>
      show List.getD (e :: t) 0 zeroEntry i ≤ 15
      rw [List.getD_cons_zero]
      exact h e (List.mem_cons_self _ _) i
    | succ n =>
      show List.getD (e :: t) (n + 1) zeroEntry i ≤ 15
      rw [List.getD_cons_succ]
      exact ih (fun e' he' => h e' (List.mem_cons_of_mem _ he')) n i

/-- Merging one suit group raises the accumulator bound by at most 15. -/
theorem add_suhai_le (table : List Entry) (lhs : Entry) (index m : Nat) (hm : m ≤ 4)
    (hT : ∀ i, lookupEntry table index i ≤ 15) (B : Nat) (hB : ∀ i, lhs i ≤ B) :
    ∀ i, add_suhai table lhs index m i ≤ B + 15 := by
  intro i
  rw [add_suhai_spec table lhs index m hm]
  by_cases h1 : i ≤ m
  · rw [if_pos h1]
    exact le_trans (nonSht_le _ _ _)
      (le_trans (Nat.mod_le _ _) (Nat.add_le_add (hB i) (hT 0)))
  · rw [if_neg h1]
    by_cases h2 : 5 ≤ i ∧ i ≤ 5 + m
    · rw [if_pos h2]
      exact le_trans (pairSht_le _ _ _)
        (le_trans (Nat.mod_le _ _) (Nat.add_le_add (hB i) (hT 0)))
    · rw [if_neg h2]
      exact le_trans (hB i) (Nat.le_add_right _ _)

/-- Merging the honor group raises the accumulator bound by at most 15. -/
theorem add_jihai_le (table : List Entry) (lhs : Entry) (index m : Nat)
    (hT : ∀ i, lookupEntry table index i ≤ 15) (B : Nat) (hB : ∀ i, lhs i ≤ B) :
    ∀ i, add_jihai table lhs index m i ≤ B + 15 := by
  intro i
  show updSlot lhs (m + 5) (pairSht lhs (lookupEntry table index) (m + 5)) i ≤ B + 15
  unfold updSlot
  by_cases hi : i = m + 5
  · rw [if_pos hi]
    exact le_trans (pairSht_le _ _ _)
      (le_trans (Nat.mod_le _ _) (Nat.add_le_add (hB _) (hT 0)))
  · rw [if_neg hi]
    exact le_trans (hB i) (Nat.le_add_right _ _)

/-- The `as i8` cast is the identity below 128. -/
theorem toI8_of_le (n : Nat) (h : n ≤ 127) : toI8 n = (n : Int) := by
  unfold toI8
  rw [if_pos (show n % 256 < 128 by omega)]
  omega

/-! ### Claim C1: structure and lower bound of `calc_normal` -/

/-- With nibble-valued tables and a meld target in `0..=4`, the standard
shanten is at least −1: the read accumulator slot is at most 60, so the
`as i8` cast is the identity on a non-negative value. -/
theorem calc_normal_ge (suhai jihai : List Entry) (tiles : List Nat)
    (len_div3 : Nat) (hlen : len_div3 ≤ 4)
    (hs : ∀ e ∈ suhai, ∀ i, e i ≤ 15) (hj : ∀ e ∈ jihai, ∀ i, e i ≤ 15) :
    -1 ≤ calc_normal suhai jihai tiles len_div3 := by
  have h0 : ∀ i, lookupEntry suhai (sum_tiles (tiles.take 9)) i ≤ 15 :=
    fun i => lookupEntry_le suhai hs _ i
  have h1 := add_suhai_le suhai _ (sum_tiles ((tiles.drop 9).take 9)) len_div3 hlen
    (fun i => lookupEntry_le suhai hs _ i) 15 h0
  have h2 := add_suhai_le suhai _ (sum_tiles ((tiles.drop 18).take 9)) len_div3 hlen
    (fun i => lookupEntry_le suhai hs _ i) 30 h1
  have h3 := add_jihai_le jihai _ (sum_tiles (tiles.drop 27)) len_div3
    (fun i => lookupEntry_le jihai hj _ i) 45 h2
  show -1 ≤ toI8 (add_jihai jihai (add_suhai suhai (add_suhai suhai
    (lookupEntry suhai (sum_tiles (tiles.take 9)))
    (sum_tiles ((tiles.drop 9).take 9)) len_div3)
    (sum_tiles ((tiles.drop 18).take 9)) len_div3)
    (sum_tiles (tiles.drop 27)) len_div3 (5 + len_div3)) - 1
  rw [toI8_of_le _ (le_trans (h3 (5 + len_div3)) (by omega))]
  omega

/-- C1: for every 34-slot tile-count vector and meld target in `0..=4`,
`calc_normal` encodes the suit and honor groups as base-5 indices, seeds
the accumulator from the first suit's table entry, merges the second and
third suit and the honor group with budget `len_div3`, and returns
accumulator slot `5 + len_div3` minus one; when the tables hold
nibble-valued entries (as decoded by the table loader) the stored slot is
a non-negative value below 128, so the result is at least −1. -/
theorem calc_normal_correct (suhai jihai : List Entry) (tiles : List Nat)
    (len_div3 : Nat) (hlen : len_div3 ≤ 4)
    (hs : ∀ e ∈ suhai, ∀ i, e i ≤ 15) (hj : ∀ e ∈ jihai, ∀ i, e i ≤ 15) :
    calc_normal suhai jihai tiles len_div3
      = toI8 (add_jihai jihai (add_suhai suhai (add_suhai suhai
          (lookupEntry suhai (sum_tiles (tiles.take 9)))
          (sum_tiles ((tiles.drop 9).take 9)) len_div3)
          (sum_tiles ((tiles.drop 18).take 9)) len_div3)
          (sum_tiles (tiles.drop 27)) len_div3 (5 + len_div3)) - 1
    ∧ (∀ c0 c1 c2 c3 c4 c5 c6 c7 c8 : Nat,
        sum_tiles [c0, c1, c2, c3, c4, c5, c6, c7, c8]
          = c0 * 5 ^ 8 + c1 * 5 ^ 7 + c2 * 5 ^ 6 + c3 * 5 ^ 5 + c4 * 5 ^ 4
            + c5 * 5 ^ 3 + c6 * 5 ^ 2 + c7 * 5 + c8)
    ∧ (∀ c0 c1 c2 c3 c4 c5 c6 : Nat,
        sum_tiles [c0, c1, c2, c3, c4, c5, c6]
          = c0 * 5 ^ 6 + c1 * 5 ^ 5 + c2 * 5 ^ 4 + c3 * 5 ^ 3 + c4 * 5 ^ 2
            + c5 * 5 + c6)
    ∧ -1 ≤ calc_normal suhai jihai tiles len_div3 := by
  refine ⟨rfl, ?_, ?_, ?_⟩
  · intro c0 c1 c2 c3 c4 c5 c6 c7 c8
    simp only [sum_tiles, List.foldl_cons, List.foldl_nil]
    ring
  · intro c0 c1 c2 c3 c4 c5 c6
    simp only [sum_tiles, List.foldl_cons, List.foldl_nil]
    ring
  · exact calc_normal_ge suhai jihai tiles len_div3 hlen hs hj

/-- Witness for C1's theorem at a concrete input. -/
theorem calc_normal_correct_witness : -1 ≤ calc_normal [] [] (List.replicate 34 0) 4 :=
  (calc_normal_correct [] [] (List.replicate 34 0) 4 (by decide)
    (by simp) (by simp)).2.2.2

/-! ### Claims C3 and C9: the combined calculator `calc_all` -/

/-- Combined shanten exactly as claim C3 states it: return the standard
shanten unchanged when it is negative (rather than non-positive, as the
code tests) or the meld target is below 4; otherwise take the minimum
with seven-pairs and, if the intermediate result is still non-negative
(rather than strictly positive, as the code tests), also with
thirteen-orphans. -/
def calc_all_claimed (suhai jihai : List Entry) (tiles : List Nat) (len_div3 : Nat) : Int :=
  let shanten := calc_normal suhai jihai tiles len_div3
  if shanten < 0 ∨ len_div3 < 4 then shanten
  else
    let shanten2 := min shanten (calc_chitoi tiles)
    if 0 ≤ shanten2 then min shanten2 (calc_kokushi tiles) else shanten2

/-- C3 (amended): `calc_all` returns the standard shanten unchanged when
the standard shanten is non-positive (`≤ 0`, not merely negative) or when
`len_div3 < 4`; otherwise it takes the minimum with the seven-pairs
shanten, and then, only if that intermediate result is still strictly
positive (`> 0`, not merely non-negative), also the minimum with the
thirteen-orphans shanten. -/
theorem calc_all_branches (suhai jihai : List Entry) (tiles : List Nat) (len_div3 : Nat) :
    (calc_normal suhai jihai tiles len_div3 ≤ 0 ∨ len_div3 < 4 →
      calc_all suhai jihai tiles len_div3 = calc_normal suhai jihai tiles len_div3)
    ∧ (0 < calc_normal suhai jihai tiles len_div3 → 4 ≤ len_div3 →
        (0 < min (calc_normal suhai jihai tiles len_div3) (calc_chitoi tiles) →
          calc_all suhai jihai tiles len_div3
            = min (min (calc_normal suhai jihai tiles len_div3) (calc_chitoi tiles))
                (calc_kokushi tiles))
        ∧ (min (calc_normal suhai jihai tiles len_div3) (calc_chitoi tiles) ≤ 0 →
            calc_all suhai jihai tiles len_div3
              = min (calc_normal suhai jihai tiles len_div3) (calc_chitoi tiles))) := by
  refine ⟨fun h => ?_, fun h1 h2 => ⟨fun h3 => ?_, fun h3 => ?_⟩⟩
  · simp only [calc_all]
    rw [if_pos h]
  · simp only [calc_all]
    rw [if_neg (by omega), if_pos h3]
  · simp only [calc_all]
    rw [if_neg (by omega), if_neg (by omega)]

/-- Witness for C3's amended theorem at a concrete input. -/
theorem calc_all_branches_witness :
    calc_all [] [] (List.replicate 34 0) 0 = calc_normal [] [] (List.replicate 34 0) 0 :=
  (calc_all_branches [] [] (List.replicate 34 0) 0).1 (Or.inr (by decide))

/-- Entry with every slot equal to one, used by the C3 counterexample. -/
def oneEntry : Entry := fun _ => 1

/-- Suit table for the C3 counterexample: 13 all-zero entries. -/
def c3Suhai : List Entry := List.replicate 13 zeroEntry

/-- Honor table for the C3 counterexample: index 12 holds the all-one
entry, all other entries are zero. -/
def c3Jihai : List Entry := List.replicate 12 zeroEntry ++ [oneEntry]

/-- A legal 14-tile hand made of seven distinct pairs (counts all ≤ 4). -/
def c3Hand : List Nat :=
  [0, 0, 0, 0, 0, 0, 0, 2, 2,
   0, 0, 0, 0, 0, 0, 0, 2, 2,
   0, 0, 0, 0, 0, 0, 0, 0, 2,
   0, 0, 0, 0, 0, 2, 2]

set_option maxRecDepth 8000 in
/-- C3 counterexample: a seven-pair hand whose standard shanten is 0
under the exhibited nibble-valued tables.  The code's `<= 0` test returns
the standard shanten 0 unchanged, while the claim's rule (return
unchanged only when negative, else take the seven-pairs minimum) yields
−1; so the claim's boundary conditions are wrong as stated. -/
theorem calc_all_claim_false :
    calc_normal c3Suhai c3Jihai c3Hand 4 = 0
    ∧ calc_chitoi c3Hand = -1
    ∧ calc_all c3Suhai c3Jihai c3Hand 4 = 0
    ∧ calc_all_claimed c3Suhai c3Jihai c3Hand 4 = -1
    ∧ calc_all c3Suhai c3Jihai c3Hand 4 ≠ calc_all_claimed c3Suhai c3Jihai c3Hand 4 := by
  refine ⟨by decide, by decide, by decide, by decide, by decide⟩

/-- C9: for every pair of tables, every hand and every meld target in
`0..=4`, the combined shanten is never greater than the standard
shanten. -/
theorem calc_all_le_calc_normal (suhai jihai : List Entry) (tiles : List Nat)
    (len_div3 : Nat) (hlen : len_div3 ≤ 4) :
    calc_all suhai jihai tiles len_div3 ≤ calc_normal suhai jihai tiles len_div3 := by
  simp only [calc_all]
  by_cases h : calc_normal suhai jihai tiles len_div3 ≤ 0 ∨ len_div3 < 4
  · rw [if_pos h]
  · rw [if_neg h]
    by_cases h2 : 0 < min (calc_normal suhai jihai tiles len_div3) (calc_chitoi tiles)
    · rw [if_pos h2]
      exact le_trans (min_le_left _ _) (min_le_left _ _)
    · rw [if_neg h2]
      exact min_le_left _ _

/-- Witness for C9's theorem at a concrete input. -/
theorem calc_all_le_calc_normal_witness :
    calc_all [] [] (List.replicate 34 0) 4 ≤ calc_normal [] [] (List.replicate 34 0) 4 :=
  calc_all_le_calc_normal [] [] (List.replicate 34 0) 4 (by decide)

/-! ### Claim C6: the table loader -/

/-- Expected entry count of the suit table. -/
def SUHAI_TABLE_SIZE : Nat := 1940777

/-- Expected entry count of the honor table. -/
def JIHAI_TABLE_SIZE : Nat := 78032

/-- Unpack a decompressed byte stream into 10-slot entries: each byte
yields its low nibble then its high nibble, and every 5 source bytes
complete one entry; trailing bytes that do not complete an entry are
dropped (they are written into the scratch buffer but never pushed). -/
def unpackEntries : List Nat → List (List Nat)
  | b0 :: b1 :: b2 :: b3 :: b4 :: rest =>
      [b0 % 16, b0 / 16 % 16, b1 % 16, b1 / 16 % 16, b2 % 16, b2 / 16 % 16,
       b3 % 16, b3 / 16 % 16, b4 % 16, b4 / 16 % 16] :: unpackEntries rest
  | _ => []

/-- Decode a decompressed asset and check the expected entry count
(`read_table`); the fatal `assert_eq!` is modelled as returning `none`. -/
def read_table (raw : List Nat) (length : Nat) : Option (List (List Nat)) :=
  let ret := unpackEntries raw
  if ret.length = length then some ret else none

/-- One entry is completed for every 5 source bytes. -/
theorem unpackEntries_length (raw : List Nat) :
    (unpackEntries raw).length = raw.length / 5 := by
  have key : ∀ (n : Nat) (l : List Nat), l.length ≤ n →
      (unpackEntries l).length = l.length / 5 := by
    intro n
    induction n with
    | zero =>
      intro l h
      cases l with
      | nil => simp [unpackEntries]
      | cons b t => simp at h
    | succ n ih =>
      intro l h
      rcases l with _ | ⟨b0, _ | ⟨b1, _ | ⟨b2, _ | ⟨b3, _ | ⟨b4, rest⟩⟩⟩⟩⟩
      · simp [unpackEntries]
      · simp [unpackEntries]
      · simp [unpackEntries]
      · simp [unpackEntries]
      · simp [unpackEntries]
      · simp only [unpackEntries, List.length_cons]
        rw [ih rest (by simp at h; omega)]
        omega
  exact key raw.length raw (le_refl _)

/-- Every completed entry has exactly 10 slots, each a 4-bit value. -/
theorem unpackEntries_shape (raw : List Nat) :
    ∀ e ∈ unpackEntries raw, e.length = 10 ∧ ∀ v ∈ e, v ≤ 15 := by
  have key : ∀ (n : Nat) (l : List Nat), l.length ≤ n →
      ∀ e ∈ unpackEntries l, e.length = 10 ∧ ∀ v ∈ e, v ≤ 15 := by
    intro n
    induction n with
    | zero =>
      intro l h e he
      cases l with
      | nil => simp [unpackEntries] at he
      | cons b t => simp at h
    | succ n ih =>
      intro l h e he
      rcases l with _ | ⟨b0, _ | ⟨b1, _ | ⟨b2, _ | ⟨b3, _ | ⟨b4, rest⟩⟩⟩⟩⟩
      · simp [unpackEntries] at he
      · simp [unpackEntries] at he
      · simp [unpackEntries] at he
      · simp [unpackEntries] at he
      · simp [unpackEntries] at he
      · rw [show unpackEntries (b0 :: b1 :: b2 :: b3 :: b4 :: rest)
            = [b0 % 16, b0 / 16 % 16, b1 % 16, b1 / 16 % 16, b2 % 16, b2 / 16 % 16,
               b3 % 16, b3 / 16 % 16, b4 % 16, b4 / 16 % 16] :: unpackEntries rest
          from by simp [unpackEntries]] at he
        rcases List.mem_cons.mp he with hh | hh
        · subst hh
          refine ⟨rfl, ?_⟩
          intro v hv
          simp only [List.mem_cons, List.not_mem_nil, or_false] at hv
          rcases hv with h | h | h | h | h | h | h | h | h | h <;> omega
        · exact ih rest (by simp at h; omega) e hh
  exact key raw.length raw (le_refl _)

/-- C6: `read_table` unpacks every decompressed byte into two 4-bit
values (low nibble first, then high nibble), completes one 10-slot entry
per 5 source bytes, and fails (modelled as `none`) exactly when the
number of completed entries differs from the expected constant
(1,940,777 for the suit table, 78,032 for the honor table); any
truncated asset is therefore detected at load time, before any lookup
can be served from a successfully loaded table. -/
theorem read_table_correct (raw : List Nat) (n : Nat) :
    ((unpackEntries raw).length = raw.length / 5)
    ∧ (read_table raw n = none ↔ raw.length / 5 ≠ n)
    ∧ (∀ es, read_table raw n = some es → es.length = n ∧ es = unpackEntries raw)
    ∧ (∀ b0 b1 b2 b3 b4 rest, unpackEntries (b0 :: b1 :: b2 :: b3 :: b4 :: rest)
        = [b0 % 16, b0 / 16 % 16, b1 % 16, b1 / 16 % 16, b2 % 16, b2 / 16 % 16,
           b3 % 16, b3 / 16 % 16, b4 % 16, b4 / 16 % 16] :: unpackEntries rest)
    ∧ (∀ e ∈ unpackEntries raw, e.length = 10 ∧ ∀ v ∈ e, v ≤ 15)
    ∧ (read_table raw SUHAI_TABLE_SIZE = none ↔ raw.length / 5 ≠ 1940777)
    ∧ (read_table raw JIHAI_TABLE_SIZE = none ↔ raw.length / 5 ≠ 78032) := by
  have h1 := unpackEntries_length raw
  have hiff : ∀ m, read_table raw m = none ↔ raw.length / 5 ≠ m := by
    intro m
    unfold read_table
    by_cases h : (unpackEntries raw).length = m
    · rw [if_pos h]
      constructor
      · intro hc
        exact absurd hc (by simp)
      · intro hc
        exact absurd (h1 ▸ h) hc
    · rw [if_neg h]
      constructor
      · intro _ hc
        exact h (by rw [h1]; exact hc)
      · intro _
        rfl
  refine ⟨h1, hiff n, ?_, fun b0 b1 b2 b3 b4 rest => by simp [unpackEntries],
    unpackEntries_shape raw, hiff _, hiff _⟩
  intro es hes
  unfold read_table at hes
  by_cases h : (unpackEntries raw).length = n
  · rw [if_pos h] at hes
    injection hes with he
    subst he
    exact ⟨h, rfl⟩
  · rw [if_neg h] at hes
    exact absurd hes (by simp)

/-- Witness for C6's theorem at a concrete input. -/
theorem read_table_correct_witness :
    read_table [0, 1, 2, 3, 4] 1 = none ↔ ([0, 1, 2, 3, 4] : List Nat).length / 5 ≠ 1 :=
  (read_table_correct [0, 1, 2, 3, 4] 1).2.1

/-! ### Derived-distance calculators -/

/-- Predicate for the terminal/honor kinds (`is_terminal_or_honor`). -/
def is_terminal_or_honor (idx : Nat) : Bool :=
  idx == 0 || idx == 8 || idx == 9 || idx == 17 || idx == 18 || idx == 26
    || (decide (27 ≤ idx) && decide (idx ≤ 33))

/-- Kind index lies in the first suit (`is_man`). -/
def is_man (idx : Nat) : Bool := decide (idx ≤ 8)

/-- Kind index lies in the second suit (`is_pin`). -/
def is_pin (idx : Nat) : Bool := decide (9 ≤ idx) && decide (idx ≤ 17)

/-- Kind index lies in the third suit (`is_sou`). -/
def is_sou (idx : Nat) : Bool := decide (18 ≤ idx) && decide (idx ≤ 26)

/-- Kind index is an honor kind (`is_honor`). -/
def is_honor (idx : Nat) : Bool := decide (27 ≤ idx)

/-- Kind index belongs to the chosen suit (`is_main_suit`). -/
def is_main_suit (idx suit : Nat) : Bool :=
  if suit = 0 then is_man idx
  else if suit = 1 then is_pin idx
  else if suit = 2 then is_sou idx
  else false

/-- Saturating 8-bit addition (`u8::saturating_add`). -/
def satAdd (a b : Nat) : Nat := min (a + b) 255

/-- All-simples heuristic distance (`tanyao_distance`): count the
terminal/honor tiles, keep only the middle tiles, and add the combined
shanten of the middle-only hand at its own implied meld target. -/
def tanyao_distance (suhai jihai : List Entry) (tiles : List Nat) : Int :=
  let mid_only := (List.range 34).map fun i =>
    if is_terminal_or_honor i then 0 else tiles.getD i 0
  let t_count := (List.range 34).foldl
    (fun acc i => if is_terminal_or_honor i then satAdd acc (tiles.getD i 0) else acc) 0
  let count_mid := mid_only.sum
  if count_mid = 0 then toI8 t_count + 8
  else toI8 t_count + calc_all suhai jihai mid_only (count_mid / 3 % 256)

/-- Single-suit-plus-honors heuristic distance
(`honitsu_distance_for_suit`). -/
def honitsu_distance_for_suit (suhai jihai : List Entry) (tiles : List Nat)
    (suit : Nat) : Int :=
  let filtered := (List.range 34).map fun i =>
    if is_main_suit i suit || is_honor i then tiles.getD i 0 else 0
  let off_color := (List.range 34).foldl
    (fun acc i => if is_main_suit i suit || is_honor i then acc
      else satAdd acc (tiles.getD i 0)) 0
  let count_f := filtered.sum
  if count_f = 0 then toI8 off_color + 8
  else toI8 off_color + calc_all suhai jihai filtered (count_f / 3 % 256)

/-! ### Claim C5: lower bounds for the heuristic distances -/

/-- Reading a list back through `getD` over the range of its length
recovers the list. -/
theorem map_getD_range (l : List Nat) :
    (List.range l.length).map (fun i => l.getD i 0) = l := by
  induction l with
  | nil => rfl
  | cons a t ih =>
    show (List.range (t.length + 1)).map (fun i => (a :: t).getD i 0) = a :: t
    rw [List.range_succ_eq_map, List.map_cons, List.map_map]
    rw [show ((fun i => (a :: t).getD i 0) ∘ Nat.succ) = fun i => t.getD i 0 from
      funext fun i => List.getD_cons_succ]
    rw [ih]
    rfl

/-- A saturating accumulation over selected slots is bounded by the
initial value plus the unrestricted sum. -/
theorem satFold_le (p : Nat → Bool) (c : Nat → Nat) :
    ∀ (l : List Nat) (a : Nat),
      l.foldl (fun acc i => if p i then satAdd acc (c i) else acc) a
        ≤ a + (l.map c).sum := by
  intro l
  induction l with
  | nil => intro a; simp
  | cons i t ih =>
    intro a
    simp only [List.foldl_cons, List.map_cons, List.sum_cons]
    by_cases h : p i
    · rw [if_pos h]
      have h1 := ih (satAdd a (c i))
      have h2 : satAdd a (c i) ≤ a + c i := min_le_left _ _
      omega
    · rw [if_neg h]
      have h1 := ih a
      omega

/-- Variant of `satFold_le` with the accumulation in the else branch. -/
theorem satFold_le' (p : Nat → Bool) (c : Nat → Nat) :
    ∀ (l : List Nat) (a : Nat),
      l.foldl (fun acc i => if p i then acc else satAdd acc (c i)) a
        ≤ a + (l.map c).sum := by
  intro l
  induction l with
  | nil => intro a; simp
  | cons i t ih =>
    intro a
    simp only [List.foldl_cons, List.map_cons, List.sum_cons]
    by_cases h : p i
    · rw [if_pos h]
      have h1 := ih a
      omega
    · rw [if_neg h]
      have h1 := ih (satAdd a (c i))
      have h2 : satAdd a (c i) ≤ a + c i := min_le_left _ _
      omega

/-- Each kind with at least two copies contributes at least two to the
total count. -/
theorem two_mul_pairs_le_sum :
    ∀ l : List Nat, 2 * (l.filter (fun c => 2 ≤ c)).length ≤ l.sum := by
  intro l
  induction l with
  | nil => simp
  | cons c t ih =>
    simp only [List.filter_cons, List.sum_cons]
    by_cases h : 2 ≤ c
    · rw [if_pos (decide_eq_true h)]
      simp only [List.length_cons]
      omega
    · rw [if_neg (by simp [h])]
      omega

/-- The seven-pairs shanten is at least −1 on a hand of at most 15
tiles. -/
theorem calc_chitoi_ge (tiles : List Nat) (h : tiles.sum ≤ 15) :
    -1 ≤ calc_chitoi tiles := by
  have h2 := two_mul_pairs_le_sum tiles
  simp only [calc_chitoi]
  omega

/-- The thirteen-orphans shanten is always at least −1. -/
theorem calc_kokushi_ge (tiles : List Nat) : -1 ≤ calc_kokushi tiles := by
  simp only [calc_kokushi]
  have h1 : (TERMINAL_INDICES.filter (fun i => 0 < tiles.getD i 0)).length ≤ 13 := by
    have h := List.length_filter_le
      (fun i => decide (0 < tiles.getD i 0)) TERMINAL_INDICES
    simpa [TERMINAL_INDICES] using h
  by_cases h2 : 0 < (TERMINAL_INDICES.filter (fun i => 2 ≤ tiles.getD i 0)).length
  · rw [if_pos h2]
    omega
  · rw [if_neg h2]
    omega

/-- The combined shanten is at least −1 when the meld target is in
`0..=4`, the hand has at most 15 tiles and the tables are
nibble-valued. -/
theorem calc_all_ge (suhai jihai : List Entry) (tiles : List Nat) (len_div3 : Nat)
    (hlen : len_div3 ≤ 4) (hsum : tiles.sum ≤ 15)
    (hs : ∀ e ∈ suhai, ∀ i, e i ≤ 15) (hj : ∀ e ∈ jihai, ∀ i, e i ≤ 15) :
    -1 ≤ calc_all suhai jihai tiles len_div3 := by
  have hn := calc_normal_ge suhai jihai tiles len_div3 hlen hs hj
  simp only [calc_all]
  by_cases h : calc_normal suhai jihai tiles len_div3 ≤ 0 ∨ len_div3 < 4
  · rw [if_pos h]
    exact hn
  · rw [if_neg h]
    have hc := calc_chitoi_ge tiles hsum
    have hk := calc_kokushi_ge tiles
    by_cases h2 : 0 < min (calc_normal suhai jihai tiles len_div3) (calc_chitoi tiles)
    · rw [if_pos h2]
      exact le_min (le_min hn hc) hk
    · rw [if_neg h2]
      exact le_min hn hc

/-- C5 (amended): for every legal hand (34 slots, counts in `0..=4`) of
at most 14 tiles — the size at which the implied meld targets stay in
`0..=4` — and nibble-valued tables, `tanyao_distance` and
`honitsu_distance_for_suit` (for each suit 0, 1, 2) return a value of at
least −1 (not, as claimed, a non-negative value: −1 is attained on a
complete filtered hand with no excluded tiles). -/
theorem distances_ge (suhai jihai : List Entry) (tiles : List Nat)
    (h34 : tiles.length = 34) (hcap : ∀ c ∈ tiles, c ≤ 4) (hsum : tiles.sum ≤ 14)
    (hs : ∀ e ∈ suhai, ∀ i, e i ≤ 15) (hj : ∀ e ∈ jihai, ∀ i, e i ≤ 15) :
    -1 ≤ tanyao_distance suhai jihai tiles
    ∧ ∀ suit, suit ≤ 2 → -1 ≤ honitsu_distance_for_suit suhai jihai tiles suit := by
  have hgetD : ((List.range 34).map fun i => tiles.getD i 0).sum = tiles.sum := by
    rw [← h34, map_getD_range]
  constructor
  · simp only [tanyao_distance]
    have hmid : ((List.range 34).map fun i =>
        if is_terminal_or_honor i then 0 else tiles.getD i 0).sum ≤ tiles.sum := by
      have hb : ((List.range 34).map fun i =>
          if is_terminal_or_honor i then 0 else tiles.getD i 0).sum
          ≤ ((List.range 34).map fun i => tiles.getD i 0).sum := by
        refine List.sum_le_sum (fun i _ => ?_)
        by_cases h : is_terminal_or_honor i = true
        · rw [if_pos h]
          exact Nat.zero_le _
        · rw [if_neg h]
      omega
    have ht : (List.range 34).foldl
        (fun acc i => if is_terminal_or_honor i then satAdd acc (tiles.getD i 0) else acc) 0
        ≤ tiles.sum := by
      have h := satFold_le is_terminal_or_honor (fun i => tiles.getD i 0)
        (List.range 34) 0
      rw [hgetD] at h
      omega
    by_cases hz : ((List.range 34).map fun i =>
        if is_terminal_or_honor i then 0 else tiles.getD i 0).sum = 0
    · rw [if_pos hz, toI8_of_le _ (by omega)]
      omega
    · rw [if_neg hz]
      have hca := calc_all_ge suhai jihai
        ((List.range 34).map fun i => if is_terminal_or_honor i then 0 else tiles.getD i 0)
        (((List.range 34).map fun i =>
          if is_terminal_or_honor i then 0 else tiles.getD i 0).sum / 3 % 256)
        (by omega) (by omega) hs hj
      rw [toI8_of_le _ (by omega)]
      omega
  · intro suit hsuit
    simp only [honitsu_distance_for_suit]
    have hfil : ((List.range 34).map fun i =>
        if is_main_suit i suit || is_honor i then tiles.getD i 0 else 0).sum
        ≤ tiles.sum := by
      have hb : ((List.range 34).map fun i =>
          if is_main_suit i suit || is_honor i then tiles.getD i 0 else 0).sum
          ≤ ((List.range 34).map fun i => tiles.getD i 0).sum := by
        refine List.sum_le_sum (fun i _ => ?_)
        by_cases h : (is_main_suit i suit || is_honor i) = true
        · rw [if_pos h]
        · rw [if_neg h]
          exact Nat.zero_le _
      omega
    have hoff : (List.range 34).foldl
        (fun acc i => if is_main_suit i suit || is_honor i then acc
          else satAdd acc (tiles.getD i 0)) 0
        ≤ tiles.sum := by
      have h := satFold_le' (fun i => is_main_suit i suit || is_honor i)
        (fun i => tiles.getD i 0) (List.range 34) 0
      rw [hgetD] at h
      omega
    by_cases hz : ((List.range 34).map fun i =>
        if is_main_suit i suit || is_honor i then tiles.getD i 0 else 0).sum = 0
    · rw [if_pos hz, toI8_of_le _ (by omega)]
      omega
    · rw [if_neg hz]
      have hca := calc_all_ge suhai jihai
        ((List.range 34).map fun i =>
          if is_main_suit i suit || is_honor i then tiles.getD i 0 else 0)
        (((List.range 34).map fun i =>
          if is_main_suit i suit || is_honor i then tiles.getD i 0 else 0).sum / 3 % 256)
        (by omega) (by omega) hs hj
      rw [toI8_of_le _ (by omega)]
      omega

/-- Witness for C5's amended theorem at a concrete input. -/
theorem distances_ge_witness :
    -1 ≤ tanyao_distance [] [] (List.replicate 34 0)
    ∧ -1 ≤ honitsu_distance_for_suit [] [] (List.replicate 34 0) 0 := by
  have h := distances_ge [] [] (List.replicate 34 0) (by decide) (by decide)
    (by decide) (by simp) (by simp)
  exact ⟨h.1, h.2 0 (by decide)⟩

/-- A legal hand holding a single middle tile (one copy of the second
kind of the first suit). -/
def c5Hand : List Nat :=
  [0, 1, 0, 0, 0, 0, 0, 0, 0,
   0, 0, 0, 0, 0, 0, 0, 0, 0,
   0, 0, 0, 0, 0, 0, 0, 0, 0,
   0, 0, 0, 0, 0, 0, 0]

set_option maxRecDepth 8000 in
/-- C5 counterexample: on a legal hand (34 slots, counts ≤ 4) whose
filtered hand is judged complete, both heuristic distances evaluate to
−1, a negative value, so "non-negative for any legal hand" is false as
stated. -/
theorem distances_nonneg_false :
    (∀ c ∈ c5Hand, c ≤ 4)
    ∧ c5Hand.length = 34
    ∧ tanyao_distance [] [] c5Hand = -1
    ∧ honitsu_distance_for_suit [] [] c5Hand 0 = -1 := by
  refine ⟨by decide, by decide, by decide, by decide⟩

/-! ### Evaluators -/

/-- The five-metric bundle produced for a hand (`HandMetrics`). -/
structure HandMetrics where
  normal_shanten : Int
  chiitoi_shanten : Int
  kokushi_shanten : Int
  tanyao_distance : Int
  honitsu_distance : List Int
deriving DecidableEq

/-- The per-discard bundle (`DiscardMetrics`): the discarded kind's index
plus the five metrics of the remaining hand. -/
structure DiscardMetrics where
  tile_index : Nat
  normal_shanten : Int
  chiitoi_shanten : Int
  kokushi_shanten : Int
  tanyao_distance : Int
  honitsu_distance : List Int
deriving DecidableEq

/-- Evaluate the full metric bundle of a hand (`eval_hand`): the meld
target is the total tile count divided by 3 (cast to `u8`). -/
def eval_hand (suhai jihai : List Entry) (tiles : List Nat) : HandMetrics :=
  let count := tiles.sum
  let len_div3 := count / 3 % 256
  { normal_shanten := calc_normal suhai jihai tiles len_div3
    chiitoi_shanten := calc_chitoi tiles
    kokushi_shanten := calc_kokushi tiles
    tanyao_distance := tanyao_distance suhai jihai tiles
    honitsu_distance := [honitsu_distance_for_suit suhai jihai tiles 0,
      honitsu_distance_for_suit suhai jihai tiles 1,
      honitsu_distance_for_suit suhai jihai tiles 2] }

/-- The bundle built by `eval_discards` for the candidate hand obtained
by discarding one copy of kind `i`. -/
def discardBundle (suhai jihai : List Entry) (tiles : List Nat) (i : Nat) :
    DiscardMetrics :=
  let tmp := tiles.set i (tiles.getD i 0 - 1)
  let count := tmp.sum
  let len_div3 := count / 3 % 256
  { tile_index := i
    normal_shanten := calc_normal suhai jihai tmp len_div3
    chiitoi_shanten := calc_chitoi tmp
    kokushi_shanten := calc_kokushi tmp
    tanyao_distance := tanyao_distance suhai jihai tmp
    honitsu_distance := [honitsu_distance_for_suit suhai jihai tmp 0,
      honitsu_distance_for_suit suhai jihai tmp 1,
      honitsu_distance_for_suit suhai jihai tmp 2] }

/-- Evaluate every one-tile discard (`eval_discards`): for each kind
present, re-evaluate the hand with one copy of that kind removed, in
ascending kind order. -/
def eval_discards (suhai jihai : List Entry) (tiles : List Nat) : List DiscardMetrics :=
  (List.range 34).filterMap fun i =>
    if tiles.getD i 0 = 0 then none
    else some (discardBundle suhai jihai tiles i)

/-! ### Claim C4: shape and content of `eval_discards` -/

/-- Mapping `tile_index` over a filtered bundle construction recovers the
filtered index list. -/
theorem filterMap_tile_index (c : Nat → Nat) (F : Nat → DiscardMetrics)
    (hF : ∀ i, (F i).tile_index = i) :
    ∀ l : List Nat,
      ((l.filterMap fun i => if c i = 0 then none else some (F i)).map
        DiscardMetrics.tile_index) = l.filter fun i => !(c i == 0) := by
  intro l
  induction l with
  | nil => rfl
  | cons i t ih =>
    simp only [List.filterMap_cons, List.filter_cons]
    by_cases h : c i = 0
    · simp [h, ih]
    · simp [h, hF, ih]

/-- C4: for every 34-slot hand, `eval_discards` returns exactly one
entry per tile kind whose count is positive, in strictly ascending order
of tile index, and each entry's five-metric bundle equals the
`HandMetrics` that `eval_hand` produces on the hand with that kind's
count decremented by one. -/
theorem eval_discards_correct (suhai jihai : List Entry) (tiles : List Nat)
    (h34 : tiles.length = 34) :
    ((eval_discards suhai jihai tiles).map DiscardMetrics.tile_index
      = (List.range 34).filter fun i => !(tiles.getD i 0 == 0))
    ∧ List.Pairwise (· < ·)
        ((eval_discards suhai jihai tiles).map DiscardMetrics.tile_index)
    ∧ (∀ d ∈ eval_discards suhai jihai tiles,
        0 < tiles.getD d.tile_index 0
        ∧ d.normal_shanten = (eval_hand suhai jihai
            (tiles.set d.tile_index (tiles.getD d.tile_index 0 - 1))).normal_shanten
        ∧ d.chiitoi_shanten = (eval_hand suhai jihai
            (tiles.set d.tile_index (tiles.getD d.tile_index 0 - 1))).chiitoi_shanten
        ∧ d.kokushi_shanten = (eval_hand suhai jihai
            (tiles.set d.tile_index (tiles.getD d.tile_index 0 - 1))).kokushi_shanten
        ∧ d.tanyao_distance = (eval_hand suhai jihai
            (tiles.set d.tile_index (tiles.getD d.tile_index 0 - 1))).tanyao_distance
        ∧ d.honitsu_distance = (eval_hand suhai jihai
            (tiles.set d.tile_index (tiles.getD d.tile_index 0 - 1))).honitsu_distance) := by
  have hmap : (eval_discards suhai jihai tiles).map DiscardMetrics.tile_index
      = (List.range 34).filter fun i => !(tiles.getD i 0 == 0) :=
    filterMap_tile_index (fun i => tiles.getD i 0)
      (discardBundle suhai jihai tiles) (fun i => rfl) (List.range 34)
  refine ⟨hmap, ?_, ?_⟩
  · rw [hmap]
    exact List.Pairwise.sublist (List.filter_sublist _) (List.pairwise_lt_range 34)
  · intro d hd
    rcases List.mem_filterMap.mp hd with ⟨i, _, hF⟩
    by_cases h0 : tiles.getD i 0 = 0
    · rw [if_pos h0] at hF
      exact absurd hF (by simp)
    · rw [if_neg h0] at hF
      injection hF with he
      subst he
      refine ⟨?_, rfl, rfl, rfl, rfl, rfl⟩
      show 0 < tiles.getD i 0
      omega

/-- Witness for C4's theorem at a concrete input. -/
theorem eval_discards_correct_witness :
    (eval_discards [] [] c5Hand).map DiscardMetrics.tile_index
      = (List.range 34).filter fun i => !(c5Hand.getD i 0 == 0) :=
  (eval_discards_correct [] [] c5Hand (by decide)).1

/-! ### Claim C10: the binding-layer entry points -/

/-- Validation error message of the binding layer. -/
def errMsg : String := "hand must be length 34 (0..33 tile counts)"

/-- Binding entry point for hand evaluation (`eval_hand_py`): rejects any
input whose length is not 34, otherwise flattens the metric bundle into
a tuple. -/
def eval_hand_py (suhai jihai : List Entry) (hand : List Nat) :
    Except String (Int × Int × Int × Int × (Int × Int × Int)) :=
  if hand.length ≠ 34 then Except.error errMsg
  else
    let m := eval_hand suhai jihai hand
    Except.ok (m.normal_shanten, m.chiitoi_shanten, m.kokushi_shanten,
      m.tanyao_distance,
      (m.honitsu_distance.getD 0 0, m.honitsu_distance.getD 1 0,
        m.honitsu_distance.getD 2 0))

/-- Binding entry point for discard evaluation (`eval_discards_py`). -/
def eval_discards_py (suhai jihai : List Entry) (hand : List Nat) :
    Except String (List (Nat × Int × Int × Int × Int × (Int × Int × Int))) :=
  if hand.length ≠ 34 then Except.error errMsg
  else
    Except.ok ((eval_discards suhai jihai hand).map fun d =>
      (d.tile_index, d.normal_shanten, d.chiitoi_shanten, d.kokushi_shanten,
        d.tanyao_distance,
        (d.honitsu_distance.getD 0 0, d.honitsu_distance.getD 1 0,
          d.honitsu_distance.getD 2 0)))

/-- C10: the binding entry points return a validation error if and only
if the input's length differs from 34; per-slot values are never
validated, so any length-34 input — including one with a count above 4 —
is evaluated without error. -/
theorem py_validation (suhai jihai : List Entry) (hand : List Nat) :
    ((∃ e, eval_hand_py suhai jihai hand = Except.error e) ↔ hand.length ≠ 34)
    ∧ ((∃ e, eval_discards_py suhai jihai hand = Except.error e) ↔ hand.length ≠ 34)
    ∧ (hand.length = 34 →
        eval_hand_py suhai jihai hand
          = Except.ok ((eval_hand suhai jihai hand).normal_shanten,
              (eval_hand suhai jihai hand).chiitoi_shanten,
              (eval_hand suhai jihai hand).kokushi_shanten,
              (eval_hand suhai jihai hand).tanyao_distance,
              ((eval_hand suhai jihai hand).honitsu_distance.getD 0 0,
                (eval_hand suhai jihai hand).honitsu_distance.getD 1 0,
                (eval_hand suhai jihai hand).honitsu_distance.getD 2 0))
        ∧ eval_discards_py suhai jihai hand
          = Except.ok ((eval_discards suhai jihai hand).map fun d =>
              (d.tile_index, d.normal_shanten, d.chiitoi_shanten, d.kokushi_shanten,
                d.tanyao_distance,
                (d.honitsu_distance.getD 0 0, d.honitsu_distance.getD 1 0,
                  d.honitsu_distance.getD 2 0)))) := by
  by_cases h : hand.length = 34
  · refine ⟨?_, ?_, fun _ => ⟨?_, ?_⟩⟩
    · unfold eval_hand_py
      rw [if_neg (not_not_intro h)]
      simp [h]
    · unfold eval_discards_py
      rw [if_neg (not_not_intro h)]
      simp [h]
    · unfold eval_hand_py
      rw [if_neg (not_not_intro h)]
    · unfold eval_discards_py
      rw [if_neg (not_not_intro h)]
  · refine ⟨?_, ?_, fun hc => absurd hc h⟩
    · unfold eval_hand_py
      rw [if_pos h]
      exact ⟨fun _ => h, fun _ => ⟨errMsg, rfl⟩⟩
    · unfold eval_discards_py
      rw [if_pos h]
      exact ⟨fun _ => h, fun _ => ⟨errMsg, rfl⟩⟩

/-- A length-34 hand whose first count is 5, violating the per-kind
invariant that is never checked. -/
def c10Hand : List Nat :=
  [5, 0, 0, 0, 0, 0, 0, 0, 0,
   0, 0, 0, 0, 0, 0, 0, 0, 0,
   0, 0, 0, 0, 0, 0, 0, 0, 0,
   0, 0, 0, 0, 0, 0, 0]

/-- Witness for C10's theorem: a hand with an impossible count of 5 is
accepted and evaluated without error. -/
theorem py_validation_witness :
    eval_hand_py [] [] c10Hand
      = Except.ok ((eval_hand [] [] c10Hand).normal_shanten,
          (eval_hand [] [] c10Hand).chiitoi_shanten,
          (eval_hand [] [] c10Hand).kokushi_shanten,
          (eval_hand [] [] c10Hand).tanyao_distance,
          ((eval_hand [] [] c10Hand).honitsu_distance.getD 0 0,
            (eval_hand [] [] c10Hand).honitsu_distance.getD 1 0,
            (eval_hand [] [] c10Hand).honitsu_distance.getD 2 0)) :=
  ((py_validation [] [] c10Hand).2.2 (by decide)).1

end Shanten
